import Mathlib

/-!
# Verification of the `vector` event-value insertion engine and encoding configuration

Shallow embedding of:
* `src/event/util/log/insert.rs` — the path-addressed insertion engine
  (`insert`, `map_insert`, `array_insert`);
* `src/sinks/util/encoding/encoding_config_with_default.rs` — the
  `EncodingConfigWithDefault` model, its setters and its string-or-struct
  deserialization.

Rust's `BTreeMap<Atom, Value>` (an ordered key-value mapping without duplicate
keys) is modelled as an association list without duplicate keys in which
`insert` replaces in place; `Vec<Value>` is modelled as `List Value`.
Machine integers (`usize`) are modelled as `Nat`; the one place where the
source performs arithmetic that can exceed the `usize` range
(`Vec::with_capacity(next + 1)`) is modelled explicitly by `capacityHint`
together with the `usizeMax` bound. Components whose source is not part of
this extract (the path lexer `PathIter`, the lookup utility, the
`EncodingConfiguration::validate` method and the concrete codec enum) are
modelled from the spec and marked as such in their doc comments.
-/

namespace Vector

/-- Interned string keys (`string_cache::DefaultAtom`). -/
abbrev Atom := String

/-- The dynamically-typed event value tree (`event::Value`): null, scalars,
ordered string-keyed map, and array. The `Map` payload models
`BTreeMap<Atom, Value>` as an association list without duplicate keys. -/
inductive Value where
  | Null : Value
  | Bytes (s : String) : Value
  | Integer (i : Int) : Value
  | Boolean (b : Bool) : Value
  | Timestamp (t : Int) : Value
  | Map (m : List (Atom × Value)) : Value
  | Array (a : List Value) : Value

/-- One component of a lexed path: a map key or an array index
(`PathComponent::Key` / `PathComponent::Index`). -/
inductive PathComponent where
  | Key (s : Atom) : PathComponent
  | Index (i : Nat) : PathComponent
deriving Repr, DecidableEq

/-- `BTreeMap::get` / `get_mut` on the association-list model. -/
def btreeGet : List (Atom × Value) → Atom → Option Value
  | [], _ => none
  | (k', v') :: rest, k => if k' = k then some v' else btreeGet rest k

/-- `BTreeMap::insert` on the association-list model: replace in place when
the key is present, append otherwise. -/
def btreeInsert : List (Atom × Value) → Atom → Value → List (Atom × Value)
  | [], k, v => [(k, v)]
  | (k', v') :: rest, k, v =>
    if k' = k then (k, v) :: rest else (k', v') :: btreeInsert rest k v

/-- The padding loop `while values.len() < current { values.push(Value::Null) }`
(insert.rs lines 45-47, 56-58, 68-70). -/
def padNull (values : List Value) (n : Nat) : List Value :=
  values ++ List.replicate (n - values.length) Value.Null

/-- `Vec::insert(i, v)`: insert at position `i`, shifting later elements right.
Faithful for `i ≤ values.length`, the precondition under which `Vec::insert`
does not panic (this bound is proved to hold at every call site, where the
list has just been padded to length at least `i`). -/
def vecInsert (values : List Value) (i : Nat) (v : Value) : List Value :=
  values.take i ++ v :: values.drop i

/-- The capacity computation `next + 1` passed to `Vec::with_capacity`
(insert.rs lines 30 and 66). The capacity hint does not affect the resulting
value, but the addition is performed in `usize` arithmetic. -/
def capacityHint (next : Nat) : Nat := next + 1

/-- The largest value representable in `usize` on a 64-bit target. -/
def usizeMax : Nat := 2 ^ 64 - 1

mutual

/-- `map_insert` (insert.rs lines 9-37): match on the next path component and
a peek at the following one; terminal `Key` sets the entry, `Key`+`Key`
descends into (or freshly creates) a nested map, `Key`+`Index` descends into
(or freshly creates) a nested array; anything else returns the map unchanged
(`_ => return`). The in-place mutation through `get_mut` is modelled by
replacing the entry at the same key with the recursively updated value. -/
def map_insert (fields : List (Atom × Value)) :
    List PathComponent → Value → List (Atom × Value)
  | [PathComponent.Key current], value => btreeInsert fields current value
  | PathComponent.Key current :: PathComponent.Key next :: rest, value =>
    match btreeGet fields current with
    | some (Value.Map map) =>
      btreeInsert fields current
        (Value.Map (map_insert map (PathComponent.Key next :: rest) value))
    | _ =>
      btreeInsert fields current
        (Value.Map (map_insert [] (PathComponent.Key next :: rest) value))
  | PathComponent.Key current :: PathComponent.Index next :: rest, value =>
    match btreeGet fields current with
    | some (Value.Array array) =>
      btreeInsert fields current
        (Value.Array (array_insert array (PathComponent.Index next :: rest) value))
    | _ =>
      btreeInsert fields current
        (Value.Array (array_insert [] (PathComponent.Index next :: rest) value))
  | _, _ => fields

/-- `array_insert` (insert.rs lines 39-76): terminal `Index` pads with `Null`
up to the index and then `Vec::insert`s there; `Index`+`Key` descends into an
existing map at the index, or pads and `Vec::insert`s a fresh one;
`Index`+`Index` likewise with an array; anything else returns the array
unchanged (`_ => return`). -/
def array_insert (values : List Value) :
    List PathComponent → Value → List Value
  | [PathComponent.Index current], value =>
    vecInsert (padNull values current) current value
  | PathComponent.Index current :: PathComponent.Key next :: rest, value =>
    match values.get? current with
    | some (Value.Map map) =>
      values.set current
        (Value.Map (map_insert map (PathComponent.Key next :: rest) value))
    | _ =>
      vecInsert (padNull values current) current
        (Value.Map (map_insert [] (PathComponent.Key next :: rest) value))
  | PathComponent.Index current :: PathComponent.Index next :: rest, value =>
    match values.get? current with
    | some (Value.Array array) =>
      values.set current
        (Value.Array (array_insert array (PathComponent.Index next :: rest) value))
    | _ =>
      vecInsert (padNull values current) current
        (Value.Array (array_insert [] (PathComponent.Index next :: rest) value))
  | _, _ => values

end

/-- Digits-to-number accumulation for the index lexer. -/
def natFromDigits (digits : List Char) : Nat :=
  digits.foldl (fun acc c => 10 * acc + (c.toNat - '0'.toNat)) 0

/-- Modelled from the spec: the Path Lexer (`PathIter`), whose source is not
part of this extract. Per spec §4.1/§6 it parses
`segment ('.' segment | '[' digits ']')*` into `Key`/`Index` components,
where a leading segment may itself start with `[`; empty input yields the
empty sequence; indices are non-negative base-10 integers with no stated
bound. The spec leaves malformed bracket syntax unspecified (§9); this model
stops lexing at a malformed bracket. -/
def lexAux (fuel : Nat) (cs : List Char) : List PathComponent :=
  match fuel with
  | 0 => []
  | fuel + 1 =>
    match cs with
    | [] => []
    | '.' :: rest => lexAux fuel rest
    | '[' :: rest =>
      let digits := rest.takeWhile fun c => c.isDigit
      match rest.dropWhile (fun c => c.isDigit) with
      | ']' :: rest2 =>
        if digits.isEmpty then []
        else PathComponent.Index (natFromDigits digits) :: lexAux fuel rest2
      | _ => []
    | c :: rest =>
      let keyChars := c :: rest.takeWhile fun ch => ch ≠ '.' ∧ ch ≠ '['
      PathComponent.Key (String.mk keyChars) ::
        lexAux fuel (rest.dropWhile fun ch => ch ≠ '.' ∧ ch ≠ '[')

/-- Modelled from the spec: lex a whole path expression string. -/
def lexPath (s : String) : List PathComponent :=
  lexAux (s.data.length + 1) s.data

/-- `insert` (insert.rs lines 5-7): the public entry point lexes the path and
delegates to `map_insert`. It returns the updated map and nothing else —
there is no error channel. -/
def insert (fields : List (Atom × Value)) (path : String) (value : Value) :
    List (Atom × Value) :=
  map_insert fields (lexPath path) value

/-- Modelled from the spec: path lookup over a value (the repository's lookup
utility is not part of this extract). Descends `Key` components through maps
and `Index` components through arrays; an exhausted path yields the value
reached. -/
def value_get : Value → List PathComponent → Option Value
  | w, [] => some w
  | Value.Map m, PathComponent.Key k :: rest =>
    match btreeGet m k with
    | some w => value_get w rest
    | none => none
  | Value.Array a, PathComponent.Index i :: rest =>
    match a.get? i with
    | some w => value_get w rest
    | none => none
  | _, _ => none

/-- Modelled from the spec: path lookup starting at the root map. -/
def map_get (fields : List (Atom × Value)) (path : List PathComponent) :
    Option Value :=
  match path with
  | PathComponent.Key k :: rest =>
    match btreeGet fields k with
    | some w => value_get w rest
    | none => none
  | _ => none

/-- Modelled from the spec: the concrete codec enumeration `E` selected by the
encoding configuration (spec §2, §4.3); the wire codecs themselves are out of
scope, only their names matter here. -/
inductive Codec where
  | Json : Codec
  | Text : Codec
deriving Repr, DecidableEq

/-- `TimestampFormat` (spec §3: optional enum `{unix, rfc3339, ...}`). -/
inductive TimestampFormat where
  | Unix : TimestampFormat
  | RFC3339 : TimestampFormat
deriving Repr, DecidableEq

/-- Modelled from the spec: deserializing the codec `E` from a bare string
(`T::deserialize(value.into_deserializer())`, encoding_config_with_default.rs
line 161). -/
def Codec.fromStr : String → Option Codec
  | "json" => some Codec.Json
  | "text" => some Codec.Text
  | _ => none

/-- Modelled from the spec: `E::default()`, the destination-specific default
codec used when a structured payload omits `codec`. -/
def defaultCodec : Codec := Codec.Text

/-- `EncodingConfigWithDefault<E>` (encoding_config_with_default.rs lines
15-42): codec plus optional field allow-list, deny-list and timestamp
format. -/
structure EncodingConfigWithDefault where
  codec : Codec
  only_fields : Option (List Atom)
  except_fields : Option (List Atom)
  timestamp_format : Option TimestampFormat
deriving Repr, DecidableEq

/-- `InnerWithDefault<T>`, the intermediate value produced by the
string-or-struct visitor (encoding_config_with_default.rs lines 150,
160-165). -/
structure InnerWithDefault where
  codec : Codec
  only_fields : Option (List Atom)
  except_fields : Option (List Atom)
  timestamp_format : Option TimestampFormat
deriving Repr, DecidableEq

/-- Errors surfaced through the deserialization path: the
`MutuallyExclusiveFields` configuration error forwarded by
`serde::de::Error::custom` (line 191), a codec parse failure, and the
generic "string or map" shape failure (line 153). -/
inductive DeError where
  | mutuallyExclusiveFields : DeError
  | invalidCodec (s : String) : DeError
  | expectedStringOrMap : DeError
deriving Repr, DecidableEq

/-- The shape of a deserializer input as discriminated by `deserialize_any`:
a bare scalar string, or a structured map whose recognized fields are those
of `InnerWithDefault` (each one optional thanks to `#[serde(default)]`). -/
inductive DeValue where
  | str (s : String) : DeValue
  | strct (codec : Option String) (only_fields : Option (List Atom))
      (except_fields : Option (List Atom))
      (timestamp_format : Option TimestampFormat) : DeValue

/-- Modelled from the spec: `EncodingConfiguration::validate`, whose source is
not part of this extract. Per spec §4.3 it fails with
`MutuallyExclusiveFields` if both `only_fields` and `except_fields` are
present and non-empty. -/
def validate (c : EncodingConfigWithDefault) : Except DeError Unit :=
  match c.only_fields, c.except_fields with
  | some o, some e =>
    if o ≠ [] ∧ e ≠ [] then Except.error DeError.mutuallyExclusiveFields
    else Except.ok ()
  | _, _ => Except.ok ()

/-- `visit_str` (encoding_config_with_default.rs lines 156-166): a bare string
names the codec; every other field takes its default (`None`). -/
def visit_str (value : String) : Except DeError InnerWithDefault :=
  match Codec.fromStr value with
  | some c => Except.ok ⟨c, none, none, none⟩
  | none => Except.error (DeError.invalidCodec value)

/-- `visit_map` (encoding_config_with_default.rs lines 168-177): a structured
payload deserializes into `InnerWithDefault` with `#[serde(default)]` filling
absent fields. -/
def visit_map (codec : Option String) (onlyF exceptF : Option (List Atom))
    (ts : Option TimestampFormat) : Except DeError InnerWithDefault :=
  match codec with
  | some s =>
    match Codec.fromStr s with
    | some c => Except.ok ⟨c, onlyF, exceptF, ts⟩
    | none => Except.error (DeError.invalidCodec s)
  | none => Except.ok ⟨defaultCodec, onlyF, exceptF, ts⟩

/-- `Deserialize for EncodingConfigWithDefault` (encoding_config_with_default.rs
lines 133-193): dispatch on the payload shape, materialize the concrete
configuration from the inner value (lines 182-187), then run `validate`
exactly once before returning it (lines 189-192). -/
def deserialize (input : DeValue) : Except DeError EncodingConfigWithDefault :=
  match (match input with
         | DeValue.str s => visit_str s
         | DeValue.strct c o e t => visit_map c o e t) with
  | Except.error err => Except.error err
  | Except.ok inner =>
    let concrete : EncodingConfigWithDefault :=
      ⟨inner.codec, inner.only_fields, inner.except_fields, inner.timestamp_format⟩
    match validate concrete with
    | Except.error err => Except.error err
    | Except.ok _ => Except.ok concrete

/-- `set_only_fields` (encoding_config_with_default.rs lines 51-53):
`std::mem::replace(&mut self.only_fields, fields)` — returns the prior
`only_fields` and stores the argument there. -/
def set_only_fields (c : EncodingConfigWithDefault) (fields : Option (List Atom)) :
    Option (List Atom) × EncodingConfigWithDefault :=
  (c.only_fields, ⟨c.codec, fields, c.except_fields, c.timestamp_format⟩)

/-- `set_except_fields` (encoding_config_with_default.rs lines 57-59): the
body is byte-for-byte `std::mem::replace(&mut self.only_fields, fields)` —
it reads and writes the `only_fields` slot, not `except_fields`. -/
def set_except_fields (c : EncodingConfigWithDefault) (fields : Option (List Atom)) :
    Option (List Atom) × EncodingConfigWithDefault :=
  (c.only_fields, ⟨c.codec, fields, c.except_fields, c.timestamp_format⟩)

/-! ## Association-list map lemmas -/

theorem btreeGet_btreeInsert (m : List (Atom × Value)) (k : Atom) (v : Value) :
    btreeGet (btreeInsert m k v) k = some v := by
  induction m with
  | nil => simp [btreeInsert, btreeGet]
  | cons p rest ih =>
    by_cases h : p.1 = k
    · simp [btreeInsert, btreeGet, h]
    · simp [btreeInsert, btreeGet, h, ih]

theorem btreeInsert_btreeInsert (m : List (Atom × Value)) (k : Atom) (v w : Value) :
    btreeInsert (btreeInsert m k v) k w = btreeInsert m k w := by
  induction m with
  | nil => simp [btreeInsert]
  | cons p rest ih =>
    by_cases h : p.1 = k
    · simp [btreeInsert, h]
    · simp [btreeInsert, h, ih]

theorem btreeInsert_length (m : List (Atom × Value)) (k : Atom) (v w : Value)
    (h : btreeGet m k = some w) : (btreeInsert m k v).length = m.length := by
  induction m with
  | nil => simp [btreeGet] at h
  | cons p rest ih =>
    by_cases hk : p.1 = k
    · simp [btreeInsert, hk]
    · simp [btreeGet, hk] at h
      simp [btreeInsert, hk, ih h]

/-! ## Insertion-engine lemmas -/

theorem padNull_length_ge (values : List Value) (n : Nat) :
    n ≤ (padNull values n).length := by
  simp [padNull]
  omega

theorem padNull_of_le (values : List Value) (n : Nat) (h : n ≤ values.length) :
    padNull values n = values := by
  simp [padNull, Nat.sub_eq_zero_of_le h]

theorem array_insert_terminal_fresh (i : Nat) (v : Value) :
    array_insert [] [PathComponent.Index i] v = List.replicate i Value.Null ++ [v] := by
  simp [array_insert, vecInsert, padNull, List.take_replicate, List.drop_replicate]

theorem array_insert_terminal_inbounds (values : List Value) (i : Nat) (v : Value)
    (h : i < values.length) :
    array_insert values [PathComponent.Index i] v = values.take i ++ v :: values.drop i := by
  simp [array_insert, vecInsert, padNull_of_le values i (Nat.le_of_lt h)]

theorem array_insert_terminal_length (values : List Value) (i : Nat) (v : Value)
    (h : i < values.length) :
    (array_insert values [PathComponent.Index i] v).length = values.length + 1 := by
  rw [array_insert_terminal_inbounds values i v h]
  simp
  omega

theorem map_insert_replaces_incompatible (fields : List (Atom × Value)) (k k2 : Atom)
    (rest : List PathComponent) (v w : Value)
    (hget : btreeGet fields k = some w) (hw : ∀ m, w ≠ Value.Map m) :
    map_insert fields (PathComponent.Key k :: PathComponent.Key k2 :: rest) v
      = btreeInsert fields k (Value.Map (map_insert [] (PathComponent.Key k2 :: rest) v)) := by
  cases w with
  | Map m => exact absurd rfl (hw m)
  | Null => simp [map_insert, hget]
  | Bytes s => simp [map_insert, hget]
  | Integer i => simp [map_insert, hget]
  | Boolean b => simp [map_insert, hget]
  | Timestamp t => simp [map_insert, hget]
  | Array a => simp [map_insert, hget]

theorem array_insert_shifts_incompatible (values : List Value) (i : Nat) (k : Atom)
    (rest : List PathComponent) (v w : Value)
    (hget : values.get? i = some w) (hw : ∀ m, w ≠ Value.Map m) :
    array_insert values (PathComponent.Index i :: PathComponent.Key k :: rest) v
      = values.take i ++ Value.Map (map_insert [] (PathComponent.Key k :: rest) v) :: values.drop i := by
  have hi : i < values.length := List.get?_eq_some.mp hget |>.1
  have hpad := padNull_of_le values i (Nat.le_of_lt hi)
  simp only [List.get?_eq_getElem?] at hget
  cases w with
  | Map m => exact absurd rfl (hw m)
  | Null => simp [array_insert, hget, vecInsert, hpad]
  | Bytes s => simp [array_insert, hget, vecInsert, hpad]
  | Integer j => simp [array_insert, hget, vecInsert, hpad]
  | Boolean b => simp [array_insert, hget, vecInsert, hpad]
  | Timestamp t => simp [array_insert, hget, vecInsert, hpad]
  | Array a => simp [array_insert, hget, vecInsert, hpad]

theorem take_append_cons_drop_length (values : List Value) (i : Nat) (x : Value)
    (h : i ≤ values.length) :
    (values.take i ++ x :: values.drop i).length = values.length + 1 := by
  simp
  omega

theorem map_get_map_insert_keys (ks : List Atom) (v : Value) (h : ks ≠ []) :
    map_get (map_insert [] (ks.map PathComponent.Key) v) (ks.map PathComponent.Key) = some v := by
  induction ks with
  | nil => exact absurd rfl h
  | cons k ks ih =>
    cases ks with
    | nil =>
      simp [map_insert, map_get, btreeInsert, btreeGet, value_get]
    | cons k2 rest =>
      have ih' := ih (by simp)
      simp only [List.map_cons] at ih' ⊢
      simp only [map_insert, btreeGet]
      simp only [map_get, btreeInsert, btreeGet, if_pos rfl]
      exact ih'

theorem map_insert_keys_idem (ks : List Atom) :
    ∀ (fields : List (Atom × Value)) (v : Value),
    map_insert (map_insert fields (ks.map PathComponent.Key) v) (ks.map PathComponent.Key) v
      = map_insert fields (ks.map PathComponent.Key) v := by
  induction ks with
  | nil => intro fields v; rfl
  | cons k ks ih =>
    intro fields v
    cases ks with
    | nil =>
      simp only [List.map_cons, List.map_nil]
      show btreeInsert (btreeInsert fields k v) k v = btreeInsert fields k v
      exact btreeInsert_btreeInsert fields k v v
    | cons k2 rest =>
      simp only [List.map_cons]
      have ih' : ∀ (m : List (Atom × Value)) (v : Value),
          map_insert (map_insert m (PathComponent.Key k2 :: List.map PathComponent.Key rest) v)
            (PathComponent.Key k2 :: List.map PathComponent.Key rest) v
            = map_insert m (PathComponent.Key k2 :: List.map PathComponent.Key rest) v := by
        intro m v
        simpa using ih m v
      rcases hget : btreeGet fields k with _ | w
      · simp [map_insert, hget, btreeGet_btreeInsert, btreeInsert_btreeInsert, ih']
      · cases w <;> simp [map_insert, hget, btreeGet_btreeInsert, btreeInsert_btreeInsert, ih']

/-! ## Claim theorems -/

/-- C1: for every path of the form `a.b.c` (dot-separated key segments, here
any path string lexing to a non-empty sequence of `Key` components) and every
value `v`, calling `insert` with that path and `v` on an empty map produces a
tree in which looking up the same path yields `v`, nested maps being
materialized for each intermediate key. -/
theorem insert_then_lookup_yields_value (s : String) (ks : List Atom) (v : Value)
    (h1 : lexPath s = ks.map PathComponent.Key) (h2 : ks ≠ []) :
    map_get (insert [] s v) (lexPath s) = some v := by
  show map_get (map_insert [] (lexPath s) v) (lexPath s) = some v
  rw [h1]
  exact map_get_map_insert_keys ks v h2

/-- Witness for C1 at the concrete path `a.b.c`. -/
theorem insert_then_lookup_yields_value_witness :
    map_get (insert [] "a.b.c" (Value.Integer 3)) (lexPath "a.b.c")
      = some (Value.Integer 3) :=
  insert_then_lookup_yields_value "a.b.c" ["a", "b", "c"] (Value.Integer 3) rfl (by simp)

/-- C2: inserting at the array path `a.b[i]` where the array is freshly
created yields an array of length `i + 1` whose entries `0..i` are `Null` and
whose entry `i` is the inserted value; in particular inserting `10` at
`a.b[0].c[2]` into an empty map yields
`{"a": {"b": [{"c": [null, null, 10]}]}}`. -/
theorem insert_fresh_array_pads_nulls (i : Nat) (v : Value) :
    map_insert [] [PathComponent.Key "a", PathComponent.Key "b", PathComponent.Index i] v
      = [("a", Value.Map [("b", Value.Array (List.replicate i Value.Null ++ [v]))])]
    ∧ (List.replicate i Value.Null ++ [v]).length = i + 1
    ∧ (∀ j, j < i → (List.replicate i Value.Null ++ [v]).get? j = some Value.Null)
    ∧ (List.replicate i Value.Null ++ [v]).get? i = some v
    ∧ insert [] "a.b[0].c[2]" (Value.Integer 10)
      = [("a", Value.Map [("b", Value.Array [Value.Map [("c",
          Value.Array [Value.Null, Value.Null, Value.Integer 10])]])])] := by
  refine ⟨?_, by simp, ?_, ?_, rfl⟩
  · simp [map_insert, btreeGet, btreeInsert, array_insert_terminal_fresh]
  · intro j hj
    simp only [List.get?_eq_getElem?]
    rw [List.getElem?_append_left (by simpa using hj)]
    simp [List.getElem?_replicate, hj]
  · simp only [List.get?_eq_getElem?]
    rw [List.getElem?_append_right (by simp)]
    simp

/-- Witness for C2 at index 2. -/
theorem insert_fresh_array_pads_nulls_witness :
    map_insert [] [PathComponent.Key "a", PathComponent.Key "b", PathComponent.Index 2]
        (Value.Boolean true)
      = [("a", Value.Map [("b",
          Value.Array (List.replicate 2 Value.Null ++ [Value.Boolean true]))])]
    ∧ (List.replicate 2 Value.Null ++ [Value.Boolean true]).get? 1 = some Value.Null :=
  ⟨(insert_fresh_array_pads_nulls 2 (Value.Boolean true)).1,
   (insert_fresh_array_pads_nulls 2 (Value.Boolean true)).2.2.1 1 (by norm_num)⟩

/-- C3 counterexample: for a terminal `Index` within the current array's
bounds the element is NOT replaced in place. Inserting `9` at `a[0]` into
`{"a": [1, 2]}` yields `{"a": [9, 1, 2]}` — `Vec::insert` shifts the existing
elements right and grows the array — not the `{"a": [9, 2]}` the claim's
replace-in-place reading predicts. -/
theorem terminal_index_shifts_not_replaces :
    insert [("a", Value.Array [Value.Integer 1, Value.Integer 2])] "a[0]" (Value.Integer 9)
      = [("a", Value.Array [Value.Integer 9, Value.Integer 1, Value.Integer 2])]
    ∧ ([("a", Value.Array [Value.Integer 9, Value.Integer 1, Value.Integer 2])] :
        List (Atom × Value))
      ≠ [("a", Value.Array [Value.Integer 9, Value.Integer 2])] :=
  ⟨rfl, by simp⟩

/-- C3 amended: when the last path component addresses an existing slot, a
terminal `Key` overwrites the map entry regardless of its prior type, leaving
the map's size unchanged; a terminal `Index` within the array's bounds instead
inserts the value at that position, shifting the prior element and its
successors right and growing the array's length by one. -/
theorem terminal_insert_behavior (fields : List (Atom × Value)) (k : Atom) (w v : Value)
    (hk : btreeGet fields k = some w)
    (values : List Value) (i : Nat) (u : Value) (hi : i < values.length) :
    map_insert fields [PathComponent.Key k] v = btreeInsert fields k v
    ∧ btreeGet (map_insert fields [PathComponent.Key k] v) k = some v
    ∧ (map_insert fields [PathComponent.Key k] v).length = fields.length
    ∧ array_insert values [PathComponent.Index i] u = values.take i ++ u :: values.drop i
    ∧ (array_insert values [PathComponent.Index i] u).length = values.length + 1 :=
  ⟨rfl, btreeGet_btreeInsert fields k v, btreeInsert_length fields k v w hk,
   array_insert_terminal_inbounds values i u hi, array_insert_terminal_length values i u hi⟩

/-- Witness for C3 (amended) on a one-entry map and a one-element array. -/
theorem terminal_insert_behavior_witness :
    map_insert [("x", Value.Null)] [PathComponent.Key "x"] (Value.Integer 2)
      = btreeInsert [("x", Value.Null)] "x" (Value.Integer 2)
    ∧ btreeGet (map_insert [("x", Value.Null)] [PathComponent.Key "x"] (Value.Integer 2)) "x"
      = some (Value.Integer 2)
    ∧ (map_insert [("x", Value.Null)] [PathComponent.Key "x"] (Value.Integer 2)).length
      = ([("x", Value.Null)] : List (Atom × Value)).length
    ∧ array_insert [Value.Null] [PathComponent.Index 0] (Value.Integer 3)
      = [Value.Null].take 0 ++ Value.Integer 3 :: [Value.Null].drop 0
    ∧ (array_insert [Value.Null] [PathComponent.Index 0] (Value.Integer 3)).length
      = [Value.Null].length + 1 :=
  terminal_insert_behavior [("x", Value.Null)] "x" Value.Null (Value.Integer 2)
    (by simp [btreeGet]) [Value.Null] 0 (Value.Integer 3) (by simp)

/-- C4 counterexample: insertion is not idempotent on array paths. Inserting
`1` at `a[0]` twice into an empty map yields `{"a": [1, 1]}`, not the
`{"a": [1]}` produced by inserting once. -/
theorem insert_array_path_not_idempotent :
    insert (insert [] "a[0]" (Value.Integer 1)) "a[0]" (Value.Integer 1)
      = [("a", Value.Array [Value.Integer 1, Value.Integer 1])]
    ∧ insert [] "a[0]" (Value.Integer 1) = [("a", Value.Array [Value.Integer 1])]
    ∧ ([("a", Value.Array [Value.Integer 1, Value.Integer 1])] : List (Atom × Value))
      ≠ [("a", Value.Array [Value.Integer 1])] :=
  ⟨rfl, rfl, by simp⟩

/-- C4 amended: insertion is idempotent for every path string that lexes to
`Key` components only (dotted paths without array indices): inserting the
same value at the same such path twice into any tree yields the same tree as
inserting it once. -/
theorem insert_key_path_idempotent (s : String) (ks : List Atom)
    (fields : List (Atom × Value)) (v : Value)
    (h : lexPath s = ks.map PathComponent.Key) :
    insert (insert fields s v) s v = insert fields s v := by
  show map_insert (map_insert fields (lexPath s) v) (lexPath s) v
      = map_insert fields (lexPath s) v
  rw [h]
  exact map_insert_keys_idem ks fields v

/-- Witness for C4 (amended) at the concrete path `a.b.c`. -/
theorem insert_key_path_idempotent_witness :
    insert (insert [] "a.b.c" (Value.Integer 3)) "a.b.c" (Value.Integer 3)
      = insert [] "a.b.c" (Value.Integer 3) :=
  insert_key_path_idempotent "a.b.c" ["a", "b", "c"] [] (Value.Integer 3) rfl

/-- C5 counterexample: the lexer can produce the index
`18446744073709551615 = 2^64 - 1 = usize::MAX` (the spec bounds indices only
as non-negative base-10 integers), and for that index the capacity
computation `next + 1` passed to `Vec::with_capacity` (insert.rs lines 30 and
66) exceeds the `usize` range — the addition overflows, so the claimed
no-overflow guarantee fails. -/
theorem capacity_hint_overflow_at_usize_max :
    lexPath "a[18446744073709551615]"
      = [PathComponent.Key "a", PathComponent.Index usizeMax]
    ∧ usizeMax < capacityHint usizeMax := by
  constructor
  · have h : usizeMax = 18446744073709551615 := by norm_num [usizeMax]
    rw [h]
    exact rfl
  · simp [capacityHint]

/-- C5 amended: the insertion engine performs no out-of-bounds accesses — at
every `Vec::insert` call site the array has just been padded to length at
least the insertion index, so the `Vec::insert` bound check cannot fail, and
the recursion is total for every component sequence and value; but the
`next + 1` capacity arithmetic stays within the `usize` range only for
indices strictly below `usize::MAX`, and overflows at the lexer-producible
index `2^64 - 1`. -/
theorem insertion_inbounds_and_capacity_bound (values : List Value) (n : Nat)
    (hn : n < usizeMax) :
    n ≤ (padNull values n).length ∧ capacityHint n ≤ usizeMax :=
  ⟨padNull_length_ge values n, hn⟩

/-- Witness for C5 (amended) at index 5. -/
theorem insertion_inbounds_and_capacity_bound_witness :
    5 ≤ (padNull [] 5).length ∧ capacityHint 5 ≤ usizeMax :=
  insertion_inbounds_and_capacity_bound [] 5 (by norm_num [usizeMax])

/-- C6: every path/value combination not covered by the enumerated
component-pair cases is a silent no-op — an empty component sequence or an
`Index` component in map context leaves the map untouched, an empty sequence
or a `Key` component in array context leaves the array untouched, and the
empty path string leaves the tree untouched; the functions return the
container unchanged and have no error channel in their result type. -/
theorem insert_silent_noop :
    (∀ (fields : List (Atom × Value)) (v : Value), map_insert fields [] v = fields)
    ∧ (∀ (fields : List (Atom × Value)) (i : Nat) (rest : List PathComponent) (v : Value),
        map_insert fields (PathComponent.Index i :: rest) v = fields)
    ∧ (∀ (values : List Value) (v : Value), array_insert values [] v = values)
    ∧ (∀ (values : List Value) (k : Atom) (rest : List PathComponent) (v : Value),
        array_insert values (PathComponent.Key k :: rest) v = values)
    ∧ (∀ (fields : List (Atom × Value)) (v : Value), insert fields "" v = fields) :=
  ⟨fun _ _ => rfl, fun _ _ _ _ => rfl, fun _ _ => rfl, fun _ _ _ _ => rfl, fun _ _ => rfl⟩

/-- C7 counterexample: in array context an incompatible value is NOT
discarded. Inserting `7` at `a[0].b` into `{"a": [5]}` yields
`{"a": [{"b": 7}, 5]}` — the fresh map is `Vec::insert`ed at index 0 and the
scalar `5` is shifted right and kept — not the `{"a": [{"b": 7}]}` the
claim's discard reading predicts. -/
theorem incompatible_array_slot_not_discarded :
    insert [("a", Value.Array [Value.Integer 5])] "a[0].b" (Value.Integer 7)
      = [("a", Value.Array [Value.Map [("b", Value.Integer 7)], Value.Integer 5])]
    ∧ ([("a", Value.Array [Value.Map [("b", Value.Integer 7)], Value.Integer 5])] :
        List (Atom × Value))
      ≠ [("a", Value.Array [Value.Map [("b", Value.Integer 7)]])] :=
  ⟨rfl, by simp⟩

/-- C7 amended: when a path prefix holds a value of an incompatible type, map
context replaces the incompatible value at the key with a fresh container and
completes the insertion inside it; array context instead builds the fresh
container, completes the insertion inside it, and `Vec::insert`s it at the
index, shifting the incompatible value right (the array grows by one). -/
theorem incompatible_prefix_replacement_behavior
    (fields : List (Atom × Value)) (k k2 : Atom) (rest : List PathComponent)
    (v w : Value) (hget : btreeGet fields k = some w) (hw : ∀ m, w ≠ Value.Map m)
    (values : List Value) (i : Nat) (k3 : Atom) (rest2 : List PathComponent)
    (u x : Value) (hget2 : values.get? i = some x) (hx : ∀ m, x ≠ Value.Map m) :
    map_insert fields (PathComponent.Key k :: PathComponent.Key k2 :: rest) v
      = btreeInsert fields k (Value.Map (map_insert [] (PathComponent.Key k2 :: rest) v))
    ∧ array_insert values (PathComponent.Index i :: PathComponent.Key k3 :: rest2) u
      = values.take i
          ++ Value.Map (map_insert [] (PathComponent.Key k3 :: rest2) u) :: values.drop i
    ∧ (array_insert values (PathComponent.Index i :: PathComponent.Key k3 :: rest2) u).length
      = values.length + 1 := by
  have hi : i < values.length := List.get?_eq_some.mp hget2 |>.1
  refine ⟨map_insert_replaces_incompatible fields k k2 rest v w hget hw,
          array_insert_shifts_incompatible values i k3 rest2 u x hget2 hx, ?_⟩
  rw [array_insert_shifts_incompatible values i k3 rest2 u x hget2 hx]
  exact take_append_cons_drop_length values i _ (Nat.le_of_lt hi)

/-- Witness for C7 (amended): a scalar at `a` under map context and a scalar
at index 0 under array context. -/
theorem incompatible_prefix_replacement_behavior_witness :
    map_insert [("a", Value.Integer 5)]
        (PathComponent.Key "a" :: PathComponent.Key "b" :: []) (Value.Integer 7)
      = btreeInsert [("a", Value.Integer 5)] "a"
          (Value.Map (map_insert [] (PathComponent.Key "b" :: []) (Value.Integer 7)))
    ∧ array_insert [Value.Integer 5]
        (PathComponent.Index 0 :: PathComponent.Key "b" :: []) (Value.Integer 7)
      = [Value.Integer 5].take 0
          ++ Value.Map (map_insert [] (PathComponent.Key "b" :: []) (Value.Integer 7))
            :: [Value.Integer 5].drop 0
    ∧ (array_insert [Value.Integer 5]
        (PathComponent.Index 0 :: PathComponent.Key "b" :: []) (Value.Integer 7)).length
      = [Value.Integer 5].length + 1 :=
  incompatible_prefix_replacement_behavior [("a", Value.Integer 5)] "a" "b" []
    (Value.Integer 7) (Value.Integer 5) (by simp [btreeGet])
    (fun m h => Value.noConfusion h)
    [Value.Integer 5] 0 "b" [] (Value.Integer 7) (Value.Integer 5) rfl
    (fun m h => Value.noConfusion h)

/-- C8: with a parseable codec, deserializing a structured payload carrying
both `only_fields` and `except_fields` fails with `MutuallyExclusiveFields`
exactly when both lists are non-empty (the check runs after the value is
materialized, before it is returned), and deserializing with only one of the
two fields present succeeds. -/
theorem deserialize_mutually_exclusive_fields (s : String) (c : Codec)
    (o e : List Atom) (t : Option TimestampFormat) (hc : Codec.fromStr s = some c) :
    (deserialize (DeValue.strct (some s) (some o) (some e) t)
        = Except.error DeError.mutuallyExclusiveFields ↔ o ≠ [] ∧ e ≠ [])
    ∧ deserialize (DeValue.strct (some s) (some o) none t)
      = Except.ok ⟨c, some o, none, t⟩
    ∧ deserialize (DeValue.strct (some s) none (some e) t)
      = Except.ok ⟨c, none, some e, t⟩ := by
  refine ⟨?_, ?_, ?_⟩
  · by_cases h : o ≠ [] ∧ e ≠ []
    · simp [deserialize, visit_map, hc, validate, h]
    · simp [deserialize, visit_map, hc, validate, h]
  · simp [deserialize, visit_map, hc, validate]
  · simp [deserialize, visit_map, hc, validate]

/-- Witness for C8: `only_fields = ["a"]` with `except_fields = ["b"]` fails
with `MutuallyExclusiveFields`; `only_fields = ["a"]` alone succeeds. -/
theorem deserialize_mutually_exclusive_fields_witness :
    deserialize (DeValue.strct (some "json") (some ["a"]) (some ["b"]) none)
      = Except.error DeError.mutuallyExclusiveFields
    ∧ deserialize (DeValue.strct (some "json") (some ["a"]) none none)
      = Except.ok ⟨Codec.Json, some ["a"], none, none⟩ :=
  ⟨(deserialize_mutually_exclusive_fields "json" Codec.Json ["a"] ["b"] none rfl).1.mpr
      ⟨by simp, by simp⟩,
   (deserialize_mutually_exclusive_fields "json" Codec.Json ["a"] ["b"] none rfl).2.1⟩

/-- C9: deserializing from the bare scalar string "json" yields the json
codec with `only_fields`, `except_fields` and `timestamp_format` all at their
default `none`, with no structured object or disambiguating tag involved. -/
theorem deserialize_bare_scalar_json :
    deserialize (DeValue.str "json")
      = Except.ok ⟨Codec.Json, none, none, none⟩ := rfl

/-- C10: `set_except_fields` mutates the `only_fields` slot instead of
`except_fields`: afterwards `only_fields` holds the argument, `except_fields`
is unchanged, the returned prior value is the old `only_fields`, and the
function coincides with `set_only_fields` — the two setters are not
independently settable. -/
theorem set_except_fields_mutates_only_fields :
    ∀ (c : EncodingConfigWithDefault) (fields : Option (List Atom)),
    (set_except_fields c fields).2.only_fields = fields
    ∧ (set_except_fields c fields).2.except_fields = c.except_fields
    ∧ (set_except_fields c fields).1 = c.only_fields
    ∧ set_except_fields c fields = set_only_fields c fields :=
  fun _ _ => ⟨rfl, rfl, rfl, rfl⟩

end Vector
